import Mathlib

/-!
Shallow embedding of the branch-resolution, range-computation and
conflict-handling logic of git-qsync (src/export.rs, src/import.rs).
External git invocations are modelled by explicit inputs (success oracles,
directory listings, walk outputs); the decision logic itself is translated
directly from the Rust source.
-/

set_option maxRecDepth 10000

/-- Model of Rust `str::strip_prefix` specialised to char lists:
`some` of the remainder when `pre` is a prefix of `s`, else `none`. -/
def isPre : List Char → List Char → Bool
  | [], _ => true
  | _ :: _, [] => false
  | a :: as, b :: bs => a == b && isPre as bs

/-- Rust `s.strip_prefix(pre)` as an `Option`. -/
def stripPfx (pre s : String) : Option String :=
  if isPre pre.toList s.toList then some (String.mk (s.toList.drop pre.toList.length))
  else none

/-- Rust `&sha[..8]`: the first eight characters of a commit id. -/
def shortSha (s : String) : String := String.mk (s.toList.take 8)

namespace GQExport

/-- From src/export.rs `is_default_branch`: normalisation of the branch side,
stripping a `refs/heads/` prefix (`strip_prefix(...).unwrap_or(branch)`). -/
def normalizedBranch (branch : String) : String :=
  (stripPfx "refs/heads/" branch).getD branch

/-- From src/export.rs `is_default_branch`: normalisation of the default-branch
side, stripping `origin/`, else `refs/remotes/origin/`, else `refs/heads/`. -/
def normalizedDefault (dflt : String) : String :=
  (((stripPfx "origin/" dflt).orElse
      (fun _ => stripPfx "refs/remotes/origin/" dflt)).orElse
      (fun _ => stripPfx "refs/heads/" dflt)).getD dflt

/-- src/export.rs `is_default_branch`: the two normalised names compared. -/
def is_default_branch (branch dflt : String) : Bool :=
  normalizedBranch branch == normalizedDefault dflt

/-- src/export.rs `run`, lines 42–58: the bundle range is the bare branch name
when the branch is the default branch, else `merge_base..branch`. -/
def bundle_range (branch dflt mergeBase : String) : String :=
  if is_default_branch branch dflt then branch
  else mergeBase ++ ".." ++ branch

/-- src/export.rs `get_default_branch`. Inputs model the repository:
`symref` is the trimmed stdout of `git symbolic-ref refs/remotes/origin/HEAD`
when that command succeeds (`none` when it fails), and `findRef r = true`
models `repo.find_reference(r).is_ok()`. -/
def get_default_branch (symref : Option String) (findRef : String → Bool) :
    Except String String :=
  match symref with
  | some defaultRef =>
      Except.ok ((stripPfx "refs/remotes/" defaultRef).getD defaultRef)
  | none =>
      if findRef "refs/remotes/origin/main" then Except.ok "origin/main"
      else if findRef "refs/remotes/origin/master" then Except.ok "origin/master"
      else if findRef "refs/heads/main" then Except.ok "main"
      else if findRef "refs/heads/master" then Except.ok "master"
      else Except.error "Cannot determine default branch"

/-- src/export.rs `get_branch_info` / `get_range_info` commit-walk loop:
`count += 1; first_sha = short(id); if count > 50000 { break }`. -/
def walkLoop : List String → Nat → String → Nat × String
  | [], count, first => (count, first)
  | c :: rest, count, _first =>
      if count + 1 > 50000 then (count + 1, shortSha c)
      else walkLoop rest (count + 1) (shortSha c)

/-- src/export.rs `get_branch_info`: `tip` is the branch tip commit id, `walk`
the revision-walk output from the tip (newest first). Returns
(count, oldest short id, newest short id). -/
def get_branch_info (tip : String) (walk : List String) : Nat × String × String :=
  let last_sha := shortSha tip
  let r := walkLoop walk 0 ""
  if r.1 = 0 then (0, "no commits", "no commits")
  else (r.1, r.2, last_sha)

/-- Rust `range.contains("..")` on the character list. -/
def containsDD : List Char → Bool
  | '.' :: '.' :: _ => true
  | _ :: rest => containsDD rest
  | [] => false

/-- Rust `range.split("..")` on the character list (accumulator holds the
current segment reversed). -/
def splitDD : List Char → List Char → List String
  | [], acc => [String.mk acc.reverse]
  | '.' :: '.' :: rest, acc => String.mk acc.reverse :: splitDD rest []
  | c :: rest, acc => splitDD rest (c :: acc)

/-- src/export.rs `get_range_info`: `resolve` models
`rev_parse_single(..).try_into_commit()` (the commit id of a revision, `none`
on failure); `walk` models the revision walk of the range (end commit with the
start commit's ancestors hidden), newest first. -/
def get_range_info (range : String) (resolve : String → Option String)
    (walk : List String) : Except String (Nat × String × String) :=
  if ¬ containsDD range.toList then
    Except.error ("Invalid range format: " ++ range)
  else
    match splitDD range.toList [] with
    | [a, b] =>
        match resolve a with
        | none => Except.error ("Start of range " ++ a ++ " does not point to a commit")
        | some _ =>
            match resolve b with
            | none => Except.error ("End of range " ++ b ++ " does not point to a commit")
            | some endSha =>
                let last_sha := shortSha endSha
                let r := walkLoop walk 0 ""
                if r.1 = 0 then Except.ok (0, "no commits", "no commits")
                else Except.ok (r.1, r.2, last_sha)
    | _ => Except.error ("Invalid range format: " ++ range)

end GQExport

namespace GQImport

/-- A directory entry as seen by src/import.rs `find_latest_bundle`: file
name, whether it is a regular file, and its modification time (seconds;
`fs::metadata(..).modified()` errors are already collapsed to `UNIX_EPOCH`,
i.e. 0, as in the source). -/
structure DirEntry where
  name : String
  isFile : Bool
  mtime : Nat
  deriving DecidableEq, Repr

/-- Helper for `extOf`: the characters after the last dot of the list, if
any. -/
def extOfAux : List Char → Option (List Char) → Option (List Char)
  | [], acc => acc
  | '.' :: rest, _ => extOfAux rest (some rest)
  | _ :: rest, acc => extOfAux rest acc

/-- Rust `Path::extension` on a plain file name: the portion after the last
dot, where a dot in leading position does not start an extension. -/
def extOf (name : String) : Option String :=
  match name.toList with
  | [] => none
  | _ :: rest => (extOfAux rest none).map (fun e => String.mk e)

/-- src/import.rs `find_latest_bundle`, filter step: regular files whose
extension is `bundle`, directly in the directory (the listing is
non-recursive). -/
def bundleFiles (entries : List DirEntry) : List DirEntry :=
  entries.filter (fun e => e.isFile && extOf e.name == some "bundle")

/-- Stable insertion (ascending by `mtime`) used to model Rust's stable
`sort_by_key`. -/
def insertMt (e : DirEntry) : List DirEntry → List DirEntry
  | [] => [e]
  | x :: xs => if x.mtime < e.mtime then x :: insertMt e xs else e :: x :: xs

/-- Stable sort ascending by `mtime`; a stable sort's output is unique, so
this models Rust's `sort_by_key`. -/
def sortByMtime : List DirEntry → List DirEntry
  | [] => []
  | e :: es => insertMt e (sortByMtime es)

/-- src/import.rs `find_latest_bundle`: given whether the directory exists
and its (non-recursive) listing, pick the `.bundle` regular file with the
most recent modification time (sort ascending, reverse, take the first). -/
def find_latest_bundle (dirExists : Bool) (dirPath : String)
    (entries : List DirEntry) : Except String DirEntry :=
  if dirExists = false then
    Except.error ("No bundle files found in " ++ dirPath)
  else
    let bundles := bundleFiles entries
    if bundles.isEmpty then
      Except.error ("No bundle files found in " ++ dirPath)
    else
      match (sortByMtime bundles).reverse with
      | [] => Except.error ("No bundle files found in " ++ dirPath)
      | b :: _ => Except.ok b

/-- Rust `str::lines().next()` on captured stdout: `none` on the empty
string, else the characters before the first newline with a trailing
carriage return removed. -/
def firstLine (s : String) : Option String :=
  if s.toList = [] then none
  else
    let l := s.toList.takeWhile (fun c => c ≠ '\n')
    let l2 := if l.getLast? = some '\r' then l.dropLast else l
    some (String.mk l2)

/-- Helper for `splitWs`: Rust `split_whitespace` (words between whitespace
runs, no empty items); `acc` holds the current word reversed. -/
def splitWsAux : List Char → List Char → List String
  | [], acc => if acc.isEmpty then [] else [String.mk acc.reverse]
  | c :: rest, acc =>
      if c.isWhitespace then
        if acc.isEmpty then splitWsAux rest []
        else String.mk acc.reverse :: splitWsAux rest []
      else splitWsAux rest (c :: acc)

/-- Rust `str::split_whitespace` collected to a list. -/
def splitWs (s : String) : List String := splitWsAux s.toList []

/-- src/import.rs `extract_branch_name`: `stdout` is the captured output of
`git bundle list-heads`. Takes the first line, its second
whitespace-separated field, and strips a `refs/heads/` prefix, returning the
field unchanged when the prefix is absent. -/
def extract_branch_name (stdout : String) : Except String String :=
  match firstLine stdout with
  | none => Except.error "Git command failed: Bundle contains no refs"
  | some line =>
      match (splitWs line).get? 1 with
      | none => Except.error "Git command failed: Invalid bundle head format"
      | some branchRef =>
          Except.ok ((stripPfx "refs/heads/" branchRef).getD branchRef)

/-- src/import.rs `handle_branch_conflict`: the interactive `Select` consumes
one user input (the selected index: 0 overwrite, 1 rename, 2 cancel); the
function returns the chosen target branch name and the unconsumed inputs. -/
def handle_branch_conflict (branch : String) (inputs : List Nat) :
    Except String String × List Nat :=
  match inputs with
  | [] => (Except.error "no selection available", [])
  | sel :: rest =>
      if sel = 0 then (Except.ok branch, rest)
      else if sel = 1 then (Except.ok ("import-" ++ branch), rest)
      else if sel = 2 then (Except.error "Cancelled by user", rest)
      else (Except.error "unreachable selection", rest)

/-- A repository-mutating git invocation issued by src/import.rs. -/
inductive GitCmd where
  | checkout (b : String)
  | checkoutNewFromParent (b : String)
  | checkoutOrphan (b : String)
  | resetHard
  | deleteBranch (b : String)
  | fetch (refspec : String)
  deriving DecidableEq, Repr

/-- The repository facts and external-command outcomes consulted by
src/import.rs `run`/`delete_branch_safely`: the current branch (`none` models
a detached or unborn HEAD), the default branch per `get_default_branch`, the
local-branch iteration order, ref existence, and the success of each external
git command. -/
structure GitEnv where
  currentBranch : Option String
  defaultBranch : Option String
  localBranches : List String
  branchExists : String → Bool
  checkoutOk : String → Bool
  newFromParentOk : Bool
  orphanOk : Bool
  deleteOk : String → Bool
  fetchOk : Bool

/-- The temporary detour branch name used by `delete_branch_safely`. -/
def tempName (branch : String) : String := "temp-before-import-" ++ branch

/-- src/import.rs `delete_branch_safely`, first switch attempt: check out the
detected default branch when it exists and differs from the target. Returns
whether the switch succeeded and the commands attempted. -/
def stageA (env : GitEnv) (branch : String) : Bool × List GitCmd :=
  match env.defaultBranch with
  | some d =>
      if env.branchExists d = true ∧ d ≠ branch then
        (env.checkoutOk d, [GitCmd.checkout d])
      else (false, [])
  | none => (false, [])

/-- src/import.rs `delete_branch_safely`, second switch attempt: iterate the
local branches and check out the first one differing from the target (and
non-empty) whose checkout succeeds. -/
def tryOther (env : GitEnv) (branch : String) : List String → Bool × List GitCmd
  | [] => (false, [])
  | b :: rest =>
      if b ≠ branch ∧ b ≠ "" then
        if env.checkoutOk b then (true, [GitCmd.checkout b])
        else
          let r := tryOther env branch rest
          (r.1, GitCmd.checkout b :: r.2)
      else tryOther env branch rest

/-- src/import.rs `delete_branch_safely`, the switch-away cascade run before
deleting the currently checked-out branch: default branch, then any other
local branch, then a temporary branch at HEAD~1, then an orphan branch with
cleared index. Returns the created temporary branch, if any, and the command
trace. -/
def switchAway (env : GitEnv) (branch : String) :
    Except String (Option String) × List GitCmd :=
  let a := stageA env branch
  if a.1 then (Except.ok none, a.2)
  else
    let b := tryOther env branch env.localBranches
    if b.1 then (Except.ok none, a.2 ++ b.2)
    else
      let t := tempName branch
      let pre : List GitCmd :=
        if env.branchExists t then [GitCmd.deleteBranch t] else []
      if env.branchExists t = true ∧ env.deleteOk t = false then
        (Except.error ("Failed to delete existing temporary branch " ++ t),
          a.2 ++ b.2 ++ pre)
      else
        let tr1 := a.2 ++ b.2 ++ pre ++ [GitCmd.checkoutNewFromParent t]
        if env.newFromParentOk then (Except.ok (some t), tr1)
        else
          let tr2 := tr1 ++ [GitCmd.checkoutOrphan t]
          if env.orphanOk then (Except.ok (some t), tr2 ++ [GitCmd.resetHard])
          else (Except.error ("Cannot switch away from branch " ++ branch), tr2)

/-- src/import.rs `delete_branch_safely`: when the target is the current
branch, switch away first and only then delete; otherwise delete directly.
Returns the temporary branch created, if any, and the command trace. -/
def delete_branch_safely (env : GitEnv) (branch : String) :
    Except String (Option String) × List GitCmd :=
  match env.currentBranch with
  | none => (Except.error "HEAD is detached, not on a branch", [])
  | some cur =>
      if cur = branch then
        match switchAway env branch with
        | (Except.error e, tr) => (Except.error e, tr)
        | (Except.ok temp, tr) =>
            let tr2 := tr ++ [GitCmd.deleteBranch branch]
            if env.deleteOk branch then (Except.ok temp, tr2)
            else (Except.error ("Failed to delete branch " ++ branch), tr2)
      else
        let tr := [GitCmd.deleteBranch branch]
        if env.deleteOk branch then (Except.ok none, tr)
        else (Except.error ("Failed to delete branch " ++ branch), tr)

/-- src/import.rs `cleanup_temp_branch`: returns its `Except` outcome and an
optional warning message; a failed delete is downgraded to a warning. -/
def cleanup_temp_branch (tempExists deleteSucceeds : Bool) :
    Except String Unit × Option String :=
  if tempExists then
    if deleteSucceeds then (Except.ok (), none)
    else (Except.ok (),
      some "Warning: Failed to clean up temporary branch")
  else (Except.ok (), none)

/-- First local branch that differs from the target, is non-empty, and whose
checkout succeeds: the branch `delete_branch_safely`'s second stage switches
to. -/
def firstEligible (env : GitEnv) (branch : String) : List String → Option String
  | [] => none
  | b :: rest =>
      if b ≠ branch ∧ b ≠ "" ∧ env.checkoutOk b = true then some b
      else firstEligible env branch rest

/-- src/import.rs `run`, from the conflict check onward (bundle discovery,
verification and branch-name extraction have already succeeded and produced
`branchName`): conflict resolution, conditional safe delete, fetch-import,
checkout of the imported branch, temporary-branch cleanup. Returns the final
branch name and the trace of repository-mutating commands. At the cleanup
step, `cleanup_temp_branch`'s runtime existence check is `true`: the detour
branch was created during the safe delete and nothing has deleted it since. -/
def run (env : GitEnv) (branchName : String) (inputs : List Nat) :
    Except String String × List GitCmd :=
  let branchExists := env.branchExists branchName
  let conflict :=
    if branchExists then handle_branch_conflict branchName inputs
    else (Except.ok branchName, inputs)
  match conflict.1 with
  | Except.error e => (Except.error e, [])
  | Except.ok finalName =>
      let del :=
        if branchExists = true ∧ finalName = branchName then
          delete_branch_safely env branchName
        else (Except.ok none, ([] : List GitCmd))
      match del with
      | (Except.error e, tr) => (Except.error e, tr)
      | (Except.ok temp, tr1) =>
          let refspec := "refs/heads/" ++ branchName ++ ":refs/heads/" ++ finalName
          let tr2 := tr1 ++ [GitCmd.fetch refspec]
          if env.fetchOk = false then
            (Except.error "Failed to import bundle", tr2)
          else
            let tr3 := tr2 ++ [GitCmd.checkout finalName]
            if env.checkoutOk finalName = false then
              (Except.error ("Failed to switch to branch " ++ finalName), tr3)
            else
              match temp with
              | none => (Except.ok finalName, tr3)
              | some t =>
                  match cleanup_temp_branch true (env.deleteOk t) with
                  | (Except.ok _, _) =>
                      (Except.ok finalName, tr3 ++ [GitCmd.deleteBranch t])
                  | (Except.error e, _) => (Except.error e, tr3)

/-- A sample repository environment (local `main` and `feature`, `main`
checked out, every external command succeeding) for concrete witnesses. -/
def sampleEnv : GitEnv where
  currentBranch := some "main"
  defaultBranch := some "main"
  localBranches := ["main", "feature"]
  branchExists := fun b => b == "main" || b == "feature"
  checkoutOk := fun _ => true
  newFromParentOk := true
  orphanOk := true
  deleteOk := fun _ => true
  fetchOk := true

/-- `sampleEnv` with the conflicting branch `feature` currently checked out. -/
def sampleEnvSelf : GitEnv :=
  { sampleEnv with currentBranch := some "feature" }

/-- An environment where `feature` is the only branch and is checked out, no
default branch is known, and deleting the temporary detour branch fails:
exercises the detour creation and the best-effort cleanup. -/
def sampleEnvDetour : GitEnv where
  currentBranch := some "feature"
  defaultBranch := none
  localBranches := ["feature"]
  branchExists := fun b => b == "feature"
  checkoutOk := fun _ => true
  newFromParentOk := true
  orphanOk := true
  deleteOk := fun b => b == "feature"
  fetchOk := true

end GQImport

/-! ### Lemmas about the commit-walk loop -/

theorem walkLoop_fst (l : List String) : ∀ (count : Nat) (first : String),
    count ≤ 50000 → (GQExport.walkLoop l count first).1 = min (count + l.length) 50001 := by
  induction l with
  | nil =>
      intro count first h
      simp [GQExport.walkLoop]
      omega
  | cons c rest ih =>
      intro count first h
      by_cases hc : count + 1 > 50000
      · have hcount : count = 50000 := by omega
        subst hcount
        simp [GQExport.walkLoop]
        omega
      · have h1 : count + 1 ≤ 50000 := by omega
        simp only [GQExport.walkLoop, if_neg hc]
        rw [ih (count + 1) (shortSha c) h1]
        simp [List.length_cons]
        omega

theorem walkLoop_snd (l : List String) : ∀ (count : Nat) (first : String),
    count ≤ 50000 →
    (GQExport.walkLoop l count first).2 =
      (((l.take (50001 - count)).getLast?.map shortSha).getD first) := by
  induction l with
  | nil =>
      intro count first _
      simp [GQExport.walkLoop]
  | cons c rest ih =>
      intro count first h
      by_cases hc : count + 1 > 50000
      · have hcount : count = 50000 := by omega
        subst hcount
        simp [GQExport.walkLoop]
      · have h1 : count + 1 ≤ 50000 := by omega
        simp only [GQExport.walkLoop, if_neg hc]
        rw [ih (count + 1) (shortSha c) h1]
        have heq : 50001 - (count + 1) = 50000 - count := by omega
        rw [heq]
        have htake : 50001 - count = (50000 - count) + 1 := by omega
        rw [htake, List.take_succ_cons]
        cases h' : rest.take (50000 - count) with
        | nil => simp [h']
        | cons x xs =>
            rw [List.getLast?_cons_cons]
            cases hlast : (x :: xs).getLast? with
            | none => simp [List.getLast?] at hlast
            | some b => simp [hlast]

/-- C1: for every branch whose normalised form (stripping `refs/heads/` from
the branch, and `origin/`, `refs/remotes/origin/` or `refs/heads/` from the
default branch) equals the resolved default branch, the export range is the
bare branch name (entire branch history); otherwise it is
`merge-base(branch, default)..branch`. -/
theorem export_range_default_full_history (b d mb : String) :
    (GQExport.normalizedBranch b = GQExport.normalizedDefault d →
      GQExport.bundle_range b d mb = b)
  ∧ (GQExport.normalizedBranch b ≠ GQExport.normalizedDefault d →
      GQExport.bundle_range b d mb = mb ++ ".." ++ b) := by
  constructor <;> intro h <;>
    simp [GQExport.bundle_range, GQExport.is_default_branch, h]

/-- Witness for C1 at concrete inputs: `main` against default `origin/main`
gives the bare branch, `feature` against `origin/main` gives a bounded range. -/
theorem export_range_default_full_history_witness :
    GQExport.bundle_range "main" "origin/main" "m0" = "main"
    ∧ GQExport.bundle_range "feature" "origin/main" "m0" = "m0..feature" :=
  ⟨(export_range_default_full_history "main" "origin/main" "m0").1 (by decide),
   (export_range_default_full_history "feature" "origin/main" "m0").2 (by decide)⟩

/-- C3: default-branch resolution order — (a) the remote's recorded HEAD
symbolic ref with the `refs/remotes/` prefix stripped when it resolves, (b)
else the first existing of `origin/main`, `origin/master`, local `main`,
local `master`, (c) else a "Cannot determine default branch" error; with no
remote, a local `main` or `master` is found, and resolution fails when neither
exists. -/
theorem export_default_branch_resolution_order (symref : Option String)
    (findRef : String → Bool) :
    (∀ s, symref = some s →
      GQExport.get_default_branch symref findRef =
        Except.ok ((stripPfx "refs/remotes/" s).getD s))
  ∧ (symref = none → findRef "refs/remotes/origin/main" = true →
      GQExport.get_default_branch symref findRef = Except.ok "origin/main")
  ∧ (symref = none → findRef "refs/remotes/origin/main" = false →
      findRef "refs/remotes/origin/master" = true →
      GQExport.get_default_branch symref findRef = Except.ok "origin/master")
  ∧ (symref = none → findRef "refs/remotes/origin/main" = false →
      findRef "refs/remotes/origin/master" = false →
      findRef "refs/heads/main" = true →
      GQExport.get_default_branch symref findRef = Except.ok "main")
  ∧ (symref = none → findRef "refs/remotes/origin/main" = false →
      findRef "refs/remotes/origin/master" = false →
      findRef "refs/heads/main" = false → findRef "refs/heads/master" = true →
      GQExport.get_default_branch symref findRef = Except.ok "master")
  ∧ (symref = none → findRef "refs/remotes/origin/main" = false →
      findRef "refs/remotes/origin/master" = false →
      findRef "refs/heads/main" = false → findRef "refs/heads/master" = false →
      GQExport.get_default_branch symref findRef =
        Except.error "Cannot determine default branch") := by
  refine ⟨?_, ?_, ?_, ?_, ?_, ?_⟩ <;> intros <;> subst_vars <;>
    simp_all [GQExport.get_default_branch]

/-- Witness for C3: a repository with no remote and only a local `master`
resolves to `master`. -/
theorem export_default_branch_resolution_order_witness :
    GQExport.get_default_branch none (fun r => r == "refs/heads/master") =
      Except.ok "master" :=
  (export_default_branch_resolution_order none
    (fun r => r == "refs/heads/master")).2.2.2.2.1 rfl (by decide) (by decide)
    (by decide) (by decide)

/-- The commit count reported by `get_branch_info` is the walk length capped
at 50,001. -/
theorem get_branch_info_fst (tip : String) (walk : List String) :
    (GQExport.get_branch_info tip walk).1 = min walk.length 50001 := by
  have hfst := walkLoop_fst walk 0 "" (by norm_num)
  rw [Nat.zero_add] at hfst
  simp only [GQExport.get_branch_info]
  by_cases h0 : (GQExport.walkLoop walk 0 "").1 = 0
  · rw [if_pos h0]
    show (0 : Nat) = min walk.length 50001
    omega
  · rw [if_neg h0]
    exact hfst

/-- The oldest short id reported by `get_branch_info` is the short id of the
last commit visited (the last of the first 50,001 walked commits). -/
theorem get_branch_info_oldest (tip : String) (walk : List String)
    (hw : walk ≠ []) :
    (GQExport.get_branch_info tip walk).2.1 =
      ((walk.take 50001).getLast?.map shortSha).getD "" := by
  have hfst := walkLoop_fst walk 0 "" (by norm_num)
  rw [Nat.zero_add] at hfst
  have hsnd := walkLoop_snd walk 0 "" (by norm_num)
  norm_num at hsnd
  have hlen : walk.length ≠ 0 := fun h0 => hw (List.length_eq_zero.mp h0)
  have h0 : (GQExport.walkLoop walk 0 "").1 ≠ 0 := by
    rw [hfst]
    omega
  simp only [GQExport.get_branch_info, if_neg h0]
  exact hsnd

/-- C6 counterexample: on a 50,002-commit history the reported commit count is
50,001, exceeding the claimed 50,000 bound (the loop increments before it
checks the cap). -/
theorem range_walk_cap_cex :
    50000 < (GQExport.get_branch_info "0123456789abcdef0123456789abcdef01234567"
      (List.replicate 50002 "c")).1 := by
  rw [get_branch_info_fst, List.length_replicate]
  omega

/-- C6 as amended: the commit walk stops once the running count exceeds
50,000, so the reported count is `min length 50001` (never more than 50,001,
though it can reach 50,001), and the reported oldest short id is the last
commit visited before stopping, for both the branch walk and the range walk. -/
theorem range_walk_cap_amended (tip : String) (walk : List String) :
    (GQExport.get_branch_info tip walk).1 = min walk.length 50001
  ∧ (GQExport.get_branch_info tip walk).1 ≤ 50001
  ∧ (walk ≠ [] →
      (GQExport.get_branch_info tip walk).2.1 =
        ((walk.take 50001).getLast?.map shortSha).getD "")
  ∧ (∀ (range : String) (resolve : String → Option String)
        (r : Nat × String × String),
      GQExport.get_range_info range resolve walk = Except.ok r →
      r.1 = min walk.length 50001
      ∧ (walk ≠ [] →
          r.2.1 = ((walk.take 50001).getLast?.map shortSha).getD "")) := by
  have hfst := walkLoop_fst walk 0 "" (by norm_num)
  have hsnd := walkLoop_snd walk 0 "" (by norm_num)
  rw [Nat.zero_add] at hfst
  norm_num at hsnd
  have hlen : walk ≠ [] → walk.length ≠ 0 := by
    intro hw h0
    exact hw (List.length_eq_zero.mp h0)
  have hmain := get_branch_info_fst tip walk
  refine ⟨hmain, by omega, get_branch_info_oldest tip walk, ?_⟩
  intro range resolve r h
  simp only [GQExport.get_range_info] at h
  split at h
  · exact Except.noConfusion h
  · split at h
    · split at h
      · exact Except.noConfusion h
      · split at h
        · exact Except.noConfusion h
        · split at h
          · rename_i h0
            rw [Except.ok.injEq] at h
            subst h
            constructor
            · show (0 : Nat) = min walk.length 50001
              omega
            · intro hw
              have := hlen hw
              omega
          · rename_i h0
            rw [Except.ok.injEq] at h
            subst h
            refine ⟨hfst, fun _ => hsnd⟩
    · exact Except.noConfusion h

/-- Witness for C6 as amended: a two-commit walk reports count 2 and the
second (oldest) short id. -/
theorem range_walk_cap_amended_witness :
    (GQExport.get_branch_info "aaaabbbbcccc" ["aaaabbbbcccc", "ddddeeeeffff"]).2.1
      = "ddddeeee" := by
  have h := (range_walk_cap_amended "aaaabbbbcccc"
    ["aaaabbbbcccc", "ddddeeeeffff"]).2.2.1 (by decide)
  rw [h]
  decide

/-- C7: a range with zero commits makes the range-statistics operations return
successfully with count 0 and the sentinel pair ("no commits", "no commits")
rather than an error. -/
theorem range_stats_zero_commits_sentinel (tip range a b : String)
    (resolve : String → Option String) (x y : String)
    (hc : GQExport.containsDD range.toList = true)
    (hs : GQExport.splitDD range.toList [] = [a, b])
    (ha : resolve a = some x) (hb : resolve b = some y) :
    GQExport.get_branch_info tip [] = (0, "no commits", "no commits")
    ∧ GQExport.get_range_info range resolve [] =
        Except.ok (0, "no commits", "no commits") := by
  constructor
  · simp [GQExport.get_branch_info, GQExport.walkLoop]
  · simp only [String.toList] at hc hs
    simp [GQExport.get_range_info, hc, hs, ha, hb, GQExport.walkLoop]

/-- Witness for C7: the empty range `a..b` yields the sentinel triple. -/
theorem range_stats_zero_commits_sentinel_witness :
    GQExport.get_branch_info "tip" [] = (0, "no commits", "no commits")
    ∧ GQExport.get_range_info "a..b" (fun s => some s) [] =
        Except.ok (0, "no commits", "no commits") :=
  range_stats_zero_commits_sentinel "tip" "a..b" "a" "b" (fun s => some s)
    "a" "b" (by decide) (by decide) rfl rfl

/-- C4: when the conflict resolver returns Cancel, the import aborts with
"Cancelled by user" and the trace of repository-mutating commands is empty:
no branch is created, deleted or moved and the working tree is not switched. -/
theorem cancel_no_side_effects (env : GQImport.GitEnv) (branch : String)
    (rest : List Nat) (hex : env.branchExists branch = true) :
    GQImport.run env branch (2 :: rest) =
      (Except.error "Cancelled by user", []) := by
  simp [GQImport.run, GQImport.handle_branch_conflict, hex]

/-- Witness for C4: cancelling the import of conflicting branch `feature`
leaves an empty mutation trace. -/
theorem cancel_no_side_effects_witness :
    GQImport.run GQImport.sampleEnv "feature" [2] =
      (Except.error "Cancelled by user", []) :=
  cancel_no_side_effects GQImport.sampleEnv "feature" [] rfl

/-- C2 counterexample: selecting Overwrite (index 0) with no further user
input makes the conflict resolver return the original name at once — no
secondary confirmation is consulted — and the import proceeds to delete and
overwrite the existing branch. -/
theorem overwrite_no_confirmation_cex :
    GQImport.handle_branch_conflict "feature" [0] = (Except.ok "feature", [])
    ∧ (GQImport.run GQImport.sampleEnv "feature" [0]).1 = Except.ok "feature"
    ∧ (GQImport.run GQImport.sampleEnv "feature" [0]).2 =
        [GQImport.GitCmd.deleteBranch "feature",
         GQImport.GitCmd.fetch "refs/heads/feature:refs/heads/feature",
         GQImport.GitCmd.checkout "feature"] :=
  ⟨rfl, rfl, rfl⟩

/-- C2 as amended: selecting Overwrite immediately resolves to the original
branch name, consuming only the one selection input, and the import's first
repository-mutating command is the deletion of the existing branch — no
secondary confirmation happens in between. -/
theorem overwrite_no_confirmation_amended (env : GQImport.GitEnv)
    (branch cur : String) (rest : List Nat)
    (hex : env.branchExists branch = true)
    (hcur : env.currentBranch = some cur) (hne : cur ≠ branch) :
    GQImport.handle_branch_conflict branch (0 :: rest) = (Except.ok branch, rest)
    ∧ (GQImport.run env branch (0 :: rest)).2.head? =
        some (GQImport.GitCmd.deleteBranch branch) := by
  refine ⟨rfl, ?_⟩
  by_cases hd : env.deleteOk branch <;>
    by_cases hf : env.fetchOk <;>
      by_cases hc : env.checkoutOk branch <;>
        simp [GQImport.run, GQImport.handle_branch_conflict,
          GQImport.delete_branch_safely, hex, hcur, hne, hd, hf, hc]

/-- Witness for C2 as amended at a concrete environment. -/
theorem overwrite_no_confirmation_amended_witness :
    GQImport.handle_branch_conflict "feature" [0] = (Except.ok "feature", [])
    ∧ (GQImport.run GQImport.sampleEnv "feature" [0]).2.head? =
        some (GQImport.GitCmd.deleteBranch "feature") :=
  overwrite_no_confirmation_amended GQImport.sampleEnv "feature" "main" []
    rfl rfl (by decide)

/-- C8: temporary detour-branch cleanup is best-effort — `cleanup_temp_branch`
always returns success, a failed delete only produces a warning, and an
entire import whose cleanup delete fails still returns success. -/
theorem cleanup_warning_best_effort
    (tempExists deleteSucceeds : Bool) (env : GQImport.GitEnv)
    (branch : String) (rest : List Nat)
    (hex : env.branchExists branch = true)
    (hcur : env.currentBranch = some branch)
    (ha : (GQImport.stageA env branch).1 = false)
    (hb : (GQImport.tryOther env branch env.localBranches).1 = false)
    (hstale : env.branchExists (GQImport.tempName branch) = false)
    (hnew : env.newFromParentOk = true)
    (hdel : env.deleteOk branch = true)
    (hfetch : env.fetchOk = true)
    (hco : env.checkoutOk branch = true)
    (hcfail : env.deleteOk (GQImport.tempName branch) = false) :
    (GQImport.cleanup_temp_branch tempExists deleteSucceeds).1 = Except.ok ()
    ∧ (tempExists = true → deleteSucceeds = false →
        (GQImport.cleanup_temp_branch tempExists deleteSucceeds).2 =
          some "Warning: Failed to clean up temporary branch")
    ∧ (GQImport.run env branch (0 :: rest)).1 = Except.ok branch := by
  refine ⟨?_, ?_, ?_⟩
  · cases tempExists <;> cases deleteSucceeds <;>
      simp [GQImport.cleanup_temp_branch]
  · intro h1 h2
    subst h1
    subst h2
    simp [GQImport.cleanup_temp_branch]
  · simp [GQImport.run, GQImport.handle_branch_conflict,
      GQImport.delete_branch_safely, GQImport.switchAway,
      GQImport.cleanup_temp_branch, hex, hcur, ha, hb, hstale, hnew, hdel,
      hfetch, hco, hcfail]

/-- Witness for C8: in `sampleEnvDetour` the detour branch's delete fails,
yet cleanup reports success with a warning and the import succeeds. -/
theorem cleanup_warning_best_effort_witness :
    (GQImport.cleanup_temp_branch true false).1 = Except.ok ()
    ∧ (true = true → false = false →
        (GQImport.cleanup_temp_branch true false).2 =
          some "Warning: Failed to clean up temporary branch")
    ∧ (GQImport.run GQImport.sampleEnvDetour "feature" [0]).1 =
        Except.ok "feature" :=
  cleanup_warning_best_effort true false GQImport.sampleEnvDetour "feature" []
    rfl rfl rfl rfl rfl rfl rfl rfl rfl rfl

/-! ### Lemmas about bundle discovery -/

theorem mem_insertMt {a e : GQImport.DirEntry} :
    ∀ {l : List GQImport.DirEntry},
      a ∈ GQImport.insertMt e l ↔ a = e ∨ a ∈ l := by
  intro l
  induction l with
  | nil => simp [GQImport.insertMt]
  | cons x xs ih =>
      by_cases h : x.mtime < e.mtime <;>
        simp [GQImport.insertMt, h, ih] <;> tauto

theorem mem_sortByMtime {a : GQImport.DirEntry} :
    ∀ {l : List GQImport.DirEntry}, a ∈ GQImport.sortByMtime l ↔ a ∈ l := by
  intro l
  induction l with
  | nil => simp [GQImport.sortByMtime]
  | cons x xs ih => simp [GQImport.sortByMtime, mem_insertMt, ih]

theorem pairwise_insertMt {e : GQImport.DirEntry} {l : List GQImport.DirEntry}
    (h : l.Pairwise (fun a b => a.mtime ≤ b.mtime)) :
    (GQImport.insertMt e l).Pairwise (fun a b => a.mtime ≤ b.mtime) := by
  induction l with
  | nil => simp [GQImport.insertMt]
  | cons x xs ih =>
      rw [List.pairwise_cons] at h
      obtain ⟨hx, hxs⟩ := h
      by_cases hc : x.mtime < e.mtime
      · simp only [GQImport.insertMt, if_pos hc]
        rw [List.pairwise_cons]
        refine ⟨?_, ih hxs⟩
        intro y hy
        rw [mem_insertMt] at hy
        rcases hy with rfl | hy
        · omega
        · exact hx y hy
      · simp only [GQImport.insertMt, if_neg hc]
        rw [List.pairwise_cons]
        refine ⟨?_, ?_⟩
        · intro y hy
          rcases List.mem_cons.mp hy with rfl | hy
          · omega
          · have := hx y hy
            omega
        · rw [List.pairwise_cons]
          exact ⟨hx, hxs⟩

theorem pairwise_sortByMtime (l : List GQImport.DirEntry) :
    (GQImport.sortByMtime l).Pairwise (fun a b => a.mtime ≤ b.mtime) := by
  induction l with
  | nil => simp [GQImport.sortByMtime]
  | cons e es ih =>
      simp only [GQImport.sortByMtime]
      exact pairwise_insertMt ih

theorem pairwise_getLast_max {l : List GQImport.DirEntry} {b : GQImport.DirEntry}
    (hp : l.Pairwise (fun a c => a.mtime ≤ c.mtime))
    (hl : l.getLast? = some b) :
    ∀ a ∈ l, a.mtime ≤ b.mtime := by
  induction l with
  | nil => simp at hl
  | cons x xs ih =>
      rw [List.pairwise_cons] at hp
      obtain ⟨hx, hxs⟩ := hp
      cases xs with
      | nil =>
          rw [List.getLast?_singleton, Option.some.injEq] at hl
          subst hl
          intro a ha
          rcases List.mem_cons.mp ha with rfl | ha
          · exact le_refl _
          · simp at ha
      | cons y ys =>
          rw [List.getLast?_cons_cons] at hl
          intro a ha
          rcases List.mem_cons.mp ha with rfl | ha
          · exact hx b (List.mem_of_getLast?_eq_some hl)
          · exact ih hxs hl a ha

/-- C9: bundle autodiscovery considers only regular `.bundle` files in the
directory listing, returns one with the maximal modification time, fails with
"No bundle files found" when the directory is absent or holds no such file,
and is deterministic on an unchanged listing (two runs agree). -/
theorem bundle_discovery_latest (dirPath : String) :
    (∀ entries, GQImport.find_latest_bundle false dirPath entries =
        Except.error ("No bundle files found in " ++ dirPath))
  ∧ (∀ entries, GQImport.bundleFiles entries = [] →
      GQImport.find_latest_bundle true dirPath entries =
        Except.error ("No bundle files found in " ++ dirPath))
  ∧ (∀ entries b,
      GQImport.find_latest_bundle true dirPath entries = Except.ok b →
      b ∈ GQImport.bundleFiles entries
      ∧ b.isFile = true ∧ GQImport.extOf b.name = some "bundle"
      ∧ (∀ e ∈ GQImport.bundleFiles entries, e.mtime ≤ b.mtime))
  ∧ (∀ entries, GQImport.find_latest_bundle true dirPath entries =
      GQImport.find_latest_bundle true dirPath entries) := by
  refine ⟨?_, ?_, ?_, fun _ => rfl⟩
  · intro entries
    simp [GQImport.find_latest_bundle]
  · intro entries hemp
    simp [GQImport.find_latest_bundle, hemp]
  · intro entries b h
    simp only [GQImport.find_latest_bundle] at h
    split at h
    · exact Except.noConfusion h
    · split at h
      · exact Except.noConfusion h
      · split at h
        · exact Except.noConfusion h
        · rename_i b' tail hrev
          rw [Except.ok.injEq] at h
          subst h
          have hlast : (GQImport.sortByMtime (GQImport.bundleFiles entries)).getLast?
              = some b' := by
            rw [← List.head?_reverse, hrev]
            rfl
          have hmem : b' ∈ GQImport.bundleFiles entries :=
            mem_sortByMtime.mp (List.mem_of_getLast?_eq_some hlast)
          have hfilter := List.mem_filter.mp hmem
          have hprop := hfilter.2
          rw [Bool.and_eq_true] at hprop
          refine ⟨hmem, hprop.1, ?_, ?_⟩
          · have := hprop.2
            rwa [beq_iff_eq] at this
          · intro e he
            exact pairwise_getLast_max
              (pairwise_sortByMtime (GQImport.bundleFiles entries)) hlast e
              (mem_sortByMtime.mpr he)

/-- Witness for C9: among `a.bundle` (mtime 5), `b.txt` (mtime 9, not a
bundle) and `e.bundle` (mtime 7), discovery picks `e.bundle` and it is
maximal among the bundle files. -/
theorem bundle_discovery_latest_witness :
    (⟨"e.bundle", true, 7⟩ : GQImport.DirEntry) ∈
      GQImport.bundleFiles
        [⟨"a.bundle", true, 5⟩, ⟨"b.txt", true, 9⟩, ⟨"e.bundle", true, 7⟩]
    ∧ (⟨"e.bundle", true, 7⟩ : GQImport.DirEntry).isFile = true
    ∧ GQImport.extOf (⟨"e.bundle", true, 7⟩ : GQImport.DirEntry).name =
        some "bundle"
    ∧ (∀ e ∈ GQImport.bundleFiles
          [⟨"a.bundle", true, 5⟩, ⟨"b.txt", true, 9⟩, ⟨"e.bundle", true, 7⟩],
        e.mtime ≤ (⟨"e.bundle", true, 7⟩ : GQImport.DirEntry).mtime) :=
  (bundle_discovery_latest "dir").2.2.1
    [⟨"a.bundle", true, 5⟩, ⟨"b.txt", true, 9⟩, ⟨"e.bundle", true, 7⟩]
    ⟨"e.bundle", true, 7⟩ rfl

/-! ### Lemmas about branch-name extraction -/

theorem takeWhile_no_newline :
    ∀ (l : List Char), (∀ c ∈ l, c ≠ '\n') →
      l.takeWhile (fun c => c ≠ '\n') = l := by
  intro l
  induction l with
  | nil => simp
  | cons c cs ih =>
      intro h
      have hc : c ≠ '\n' := h c (List.mem_cons_self c cs)
      have ih' := ih fun d hd => h d (List.mem_cons_of_mem c hd)
      simp only [ne_eq, decide_not] at ih'
      simpa [List.takeWhile_cons, hc] using ih'

theorem takeWhile_append_newline (r : List Char) :
    ∀ (l : List Char), (∀ c ∈ l, c ≠ '\n') →
      (l ++ '\n' :: r).takeWhile (fun c => c ≠ '\n') = l := by
  intro l
  induction l with
  | nil => simp
  | cons c cs ih =>
      intro h
      have hc : c ≠ '\n' := h c (List.mem_cons_self c cs)
      have ih' := ih fun d hd => h d (List.mem_cons_of_mem c hd)
      simp only [ne_eq, decide_not] at ih'
      simpa [List.takeWhile_cons, hc] using ih'

theorem data_append_newline (line rest : String) :
    (line ++ "\n" ++ rest).toList = line.toList ++ '\n' :: rest.toList := by
  show (line ++ "\n" ++ rest).data = line.data ++ '\n' :: rest.data
  rw [String.data_append, String.data_append, List.append_assoc]
  rfl

theorem firstLine_of_append (line rest : String)
    (hnl : ∀ c ∈ line.toList, c ≠ '\n')
    (hne : line.toList ≠ [])
    (hcr : line.toList.getLast? ≠ some '\r') :
    GQImport.firstLine (line ++ "\n" ++ rest) = some line
    ∧ GQImport.firstLine line = some line := by
  constructor
  · simp only [GQImport.firstLine, data_append_newline]
    rw [if_neg (by simp), takeWhile_append_newline rest.toList line.toList hnl,
      if_neg hcr]
    rfl
  · simp only [GQImport.firstLine]
    rw [if_neg hne, takeWhile_no_newline line.toList hnl, if_neg hcr]
    rfl

/-- C10: branch-name extraction reads only the first line of the bundle's
head list (appending further lines changes nothing), takes its second
whitespace-separated field and strips a `refs/heads/` prefix; a first head
that is not under `refs/heads/` (e.g. a tag ref) is returned unchanged rather
than rejected. -/
theorem extract_branch_first_head (line rest field : String)
    (hnl : ∀ c ∈ line.toList, c ≠ '\n')
    (hne : line.toList ≠ [])
    (hcr : line.toList.getLast? ≠ some '\r')
    (hf : (GQImport.splitWs line).get? 1 = some field) :
    GQImport.extract_branch_name (line ++ "\n" ++ rest) =
      Except.ok ((stripPfx "refs/heads/" field).getD field)
    ∧ GQImport.extract_branch_name (line ++ "\n" ++ rest) =
        GQImport.extract_branch_name line
    ∧ (isPre "refs/heads/".toList field.toList = false →
        GQImport.extract_branch_name (line ++ "\n" ++ rest) =
          Except.ok field) := by
  obtain ⟨h1, h2⟩ := firstLine_of_append line rest hnl hne hcr
  have e1 : GQImport.extract_branch_name (line ++ "\n" ++ rest) =
      Except.ok ((stripPfx "refs/heads/" field).getD field) := by
    simp only [GQImport.extract_branch_name, h1, hf]
  refine ⟨e1, ?_, ?_⟩
  · rw [e1]
    simp only [GQImport.extract_branch_name, h2, hf]
  · intro hp
    have hcond : ¬(isPre "refs/heads/".toList field.toList = true) := by
      intro hcontra
      rw [hp] at hcontra
      exact Bool.false_ne_true hcontra
    rw [e1]
    unfold stripPfx
    rw [if_neg hcond]
    rfl

/-- Witness for C10: a bundle whose first head is a tag ref yields the full
ref string, and the second head line is ignored. -/
theorem extract_branch_first_head_witness :
    GQImport.extract_branch_name
        ("abc123 refs/tags/v1.0" ++ "\n" ++ "def456 refs/heads/other") =
      Except.ok "refs/tags/v1.0" :=
  (extract_branch_first_head "abc123 refs/tags/v1.0" "def456 refs/heads/other"
    "refs/tags/v1.0" (by decide) (by decide) (by decide) (by decide)).2.2
    (by decide)

/-! ### Lemmas about the switch-away cascade -/

theorem getLast?_cons_of_some {α : Type} {l : List α} {a g : α}
    (h : l.getLast? = some g) : (a :: l).getLast? = some g := by
  cases l with
  | nil => simp at h
  | cons x xs =>
      rw [List.getLast?_cons_cons]
      exact h

theorem tryOther_eligible (env : GQImport.GitEnv) (branch : String) :
    ∀ (l : List String) (b : String),
      GQImport.firstEligible env branch l = some b →
      (GQImport.tryOther env branch l).1 = true
      ∧ (GQImport.tryOther env branch l).2.getLast? =
          some (GQImport.GitCmd.checkout b)
      ∧ b ∈ l ∧ b ≠ branch ∧ env.checkoutOk b = true := by
  intro l
  induction l with
  | nil =>
      intro b h
      simp [GQImport.firstEligible] at h
  | cons x xs ih =>
      intro b h
      by_cases hx : x ≠ branch ∧ x ≠ "" ∧ env.checkoutOk x = true
      · rw [GQImport.firstEligible, if_pos hx, Option.some.injEq] at h
        subst h
        have ht : GQImport.tryOther env branch (x :: xs) =
            (true, [GQImport.GitCmd.checkout x]) := by
          simp only [GQImport.tryOther]
          rw [if_pos ⟨hx.1, hx.2.1⟩, if_pos hx.2.2]
        rw [ht]
        exact ⟨rfl, rfl, List.mem_cons_self x xs, hx.1, hx.2.2⟩
      · rw [GQImport.firstEligible, if_neg hx] at h
        have ihb := ih b h
        by_cases hxy : x ≠ branch ∧ x ≠ ""
        · have hco : env.checkoutOk x = false := by
            cases hco : env.checkoutOk x
            · rfl
            · exact absurd ⟨hxy.1, hxy.2, hco⟩ hx
          have hnco : ¬(env.checkoutOk x = true) := by simp [hco]
          have ht : GQImport.tryOther env branch (x :: xs) =
              ((GQImport.tryOther env branch xs).1,
                GQImport.GitCmd.checkout x ::
                  (GQImport.tryOther env branch xs).2) := by
            simp only [GQImport.tryOther]
            rw [if_pos hxy, if_neg hnco]
          rw [ht]
          exact ⟨ihb.1, getLast?_cons_of_some ihb.2.1,
            List.mem_cons_of_mem x ihb.2.2.1, ihb.2.2.2.1, ihb.2.2.2.2⟩
        · have ht : GQImport.tryOther env branch (x :: xs) =
              GQImport.tryOther env branch xs := by
            simp only [GQImport.tryOther]
            rw [if_neg hxy]
          rw [ht]
          exact ⟨ihb.1, ihb.2.1, List.mem_cons_of_mem x ihb.2.2.1,
            ihb.2.2.2.1, ihb.2.2.2.2⟩

theorem tryOther_none (env : GQImport.GitEnv) (branch : String) :
    ∀ (l : List String), GQImport.firstEligible env branch l = none →
      (GQImport.tryOther env branch l).1 = false := by
  intro l
  induction l with
  | nil => intro _; rfl
  | cons x xs ih =>
      intro h
      by_cases hx : x ≠ branch ∧ x ≠ "" ∧ env.checkoutOk x = true
      · rw [GQImport.firstEligible, if_pos hx] at h
        exact Option.noConfusion h
      · rw [GQImport.firstEligible, if_neg hx] at h
        by_cases hxy : x ≠ branch ∧ x ≠ ""
        · have hco : env.checkoutOk x = false := by
            cases hco : env.checkoutOk x
            · rfl
            · exact absurd ⟨hxy.1, hxy.2, hco⟩ hx
          have hnco : ¬(env.checkoutOk x = true) := by simp [hco]
          simp only [GQImport.tryOther]
          rw [if_pos hxy, if_neg hnco]
          exact ih h
        · simp only [GQImport.tryOther]
          rw [if_neg hxy]
          exact ih h

theorem tryOther_trace_checkout (env : GQImport.GitEnv) (branch : String) :
    ∀ (l : List String) (c : GQImport.GitCmd),
      c ∈ (GQImport.tryOther env branch l).2 →
      ∃ b, c = GQImport.GitCmd.checkout b := by
  intro l
  induction l with
  | nil =>
      intro c hc
      simp [GQImport.tryOther] at hc
  | cons x xs ih =>
      intro c hc
      by_cases hxy : x ≠ branch ∧ x ≠ ""
      · by_cases hco : env.checkoutOk x = true
        · have ht : GQImport.tryOther env branch (x :: xs) =
              (true, [GQImport.GitCmd.checkout x]) := by
            simp only [GQImport.tryOther]
            rw [if_pos hxy, if_pos hco]
          rw [ht] at hc
          simp at hc
          exact ⟨x, hc⟩
        · have ht : GQImport.tryOther env branch (x :: xs) =
              ((GQImport.tryOther env branch xs).1,
                GQImport.GitCmd.checkout x ::
                  (GQImport.tryOther env branch xs).2) := by
            simp only [GQImport.tryOther]
            rw [if_pos hxy, if_neg hco]
          rw [ht] at hc
          simp only [List.mem_cons] at hc
          rcases hc with rfl | hc
          · exact ⟨x, rfl⟩
          · exact ih c hc
      · have ht : GQImport.tryOther env branch (x :: xs) =
            GQImport.tryOther env branch xs := by
          simp only [GQImport.tryOther]
          rw [if_neg hxy]
        rw [ht] at hc
        exact ih c hc

theorem stageA_trace_checkout (env : GQImport.GitEnv) (branch : String) :
    ∀ c ∈ (GQImport.stageA env branch).2,
      ∃ b, c = GQImport.GitCmd.checkout b := by
  intro c hc
  cases hd : env.defaultBranch with
  | none => simp [GQImport.stageA, hd] at hc
  | some d =>
      by_cases he : env.branchExists d = true ∧ d ≠ branch
      · simp [GQImport.stageA, hd, he] at hc
        exact ⟨d, hc⟩
      · simp [GQImport.stageA, hd, he] at hc

theorem tempName_ne (branch : String) : GQImport.tempName branch ≠ branch := by
  intro h
  have hlen := congrArg String.length h
  rw [GQImport.tempName, String.length_append] at hlen
  have h19 : ("temp-before-import-" : String).length = 19 := rfl
  rw [h19] at hlen
  omega

theorem switchAway_cmds (env : GQImport.GitEnv) (branch : String) :
    ∀ c ∈ (GQImport.switchAway env branch).2,
      (∃ b, c = GQImport.GitCmd.checkout b)
      ∨ c = GQImport.GitCmd.deleteBranch (GQImport.tempName branch)
      ∨ c = GQImport.GitCmd.checkoutNewFromParent (GQImport.tempName branch)
      ∨ c = GQImport.GitCmd.checkoutOrphan (GQImport.tempName branch)
      ∨ c = GQImport.GitCmd.resetHard := by
  intro c hc
  simp only [GQImport.switchAway] at hc
  have hpre : ∀ c' ∈ (if env.branchExists (GQImport.tempName branch) = true
      then [GQImport.GitCmd.deleteBranch (GQImport.tempName branch)]
      else ([] : List GQImport.GitCmd)),
      c' = GQImport.GitCmd.deleteBranch (GQImport.tempName branch) := by
    intro c' hc'
    by_cases hex : env.branchExists (GQImport.tempName branch) = true
    · rw [if_pos hex] at hc'
      simpa using hc'
    · rw [if_neg hex] at hc'
      simp at hc'
  by_cases ha : (GQImport.stageA env branch).1 = true
  · rw [if_pos ha] at hc
    exact Or.inl (stageA_trace_checkout env branch c hc)
  · rw [if_neg ha] at hc
    by_cases hb : (GQImport.tryOther env branch env.localBranches).1 = true
    · rw [if_pos hb] at hc
      rcases List.mem_append.mp hc with h | h
      · exact Or.inl (stageA_trace_checkout env branch c h)
      · exact Or.inl (tryOther_trace_checkout env branch env.localBranches c h)
    · rw [if_neg hb] at hc
      by_cases hsd : env.branchExists (GQImport.tempName branch) = true ∧
          env.deleteOk (GQImport.tempName branch) = false
      · rw [if_pos hsd] at hc
        rcases List.mem_append.mp hc with h | h
        · rcases List.mem_append.mp h with h' | h'
          · exact Or.inl (stageA_trace_checkout env branch c h')
          · exact Or.inl
              (tryOther_trace_checkout env branch env.localBranches c h')
        · exact Or.inr (Or.inl (hpre c h))
      · rw [if_neg hsd] at hc
        by_cases hn : env.newFromParentOk = true
        · rw [if_pos hn] at hc
          rcases List.mem_append.mp hc with h | h
          · rcases List.mem_append.mp h with h' | h'
            · rcases List.mem_append.mp h' with h'' | h''
              · exact Or.inl (stageA_trace_checkout env branch c h'')
              · exact Or.inl
                  (tryOther_trace_checkout env branch env.localBranches c h'')
            · exact Or.inr (Or.inl (hpre c h'))
          · rw [List.mem_singleton] at h
            exact Or.inr (Or.inr (Or.inl h))
        · rw [if_neg hn] at hc
          by_cases ho : env.orphanOk = true
          · rw [if_pos ho] at hc
            rcases List.mem_append.mp hc with h | h
            · rcases List.mem_append.mp h with h' | h'
              · rcases List.mem_append.mp h' with h'' | h''
                · rcases List.mem_append.mp h'' with h3 | h3
                  · rcases List.mem_append.mp h3 with h4 | h4
                    · exact Or.inl (stageA_trace_checkout env branch c h4)
                    · exact Or.inl (tryOther_trace_checkout env branch
                        env.localBranches c h4)
                  · exact Or.inr (Or.inl (hpre c h3))
                · rw [List.mem_singleton] at h''
                  exact Or.inr (Or.inr (Or.inl h''))
              · rw [List.mem_singleton] at h'
                exact Or.inr (Or.inr (Or.inr (Or.inl h')))
            · rw [List.mem_singleton] at h
              exact Or.inr (Or.inr (Or.inr (Or.inr h)))
          · rw [if_neg ho] at hc
            rcases List.mem_append.mp hc with h | h
            · rcases List.mem_append.mp h with h' | h'
              · rcases List.mem_append.mp h' with h'' | h''
                · rcases List.mem_append.mp h'' with h3 | h3
                  · exact Or.inl (stageA_trace_checkout env branch c h3)
                  · exact Or.inl (tryOther_trace_checkout env branch
                      env.localBranches c h3)
                · exact Or.inr (Or.inl (hpre c h''))
              · rw [List.mem_singleton] at h'
                exact Or.inr (Or.inr (Or.inl h'))
            · rw [List.mem_singleton] at h
              exact Or.inr (Or.inr (Or.inr (Or.inl h)))

theorem deleteBranch_not_mem_switchAway (env : GQImport.GitEnv)
    (branch : String) :
    GQImport.GitCmd.deleteBranch branch ∉ (GQImport.switchAway env branch).2 := by
  intro hmem
  rcases switchAway_cmds env branch _ hmem with ⟨b, hb⟩ | h | h | h | h
  · exact GQImport.GitCmd.noConfusion hb
  · injection h with h1
    exact tempName_ne branch h1.symm
  · exact GQImport.GitCmd.noConfusion h
  · exact GQImport.GitCmd.noConfusion h
  · exact GQImport.GitCmd.noConfusion h

/-- C5: when Overwrite targets the currently checked-out branch, the switch-
away cascade tries (a) the detected default branch when it exists and differs
from the target, (b) else the first other existing local branch whose
checkout succeeds, (c) else a temporary branch from HEAD~1, or an orphan
branch with cleared index when HEAD~1 does not resolve; and the conflicting
branch's deletion appears in the trace only after the switch-away succeeded,
as the final command. -/
theorem overwrite_switch_away_order (env : GQImport.GitEnv) (branch : String)
    (hcur : env.currentBranch = some branch) :
    (∀ d, env.defaultBranch = some d → env.branchExists d = true →
      d ≠ branch → env.checkoutOk d = true →
      GQImport.switchAway env branch =
        (Except.ok none, [GQImport.GitCmd.checkout d]))
  ∧ ((GQImport.stageA env branch).1 = false →
      ∀ b, GQImport.firstEligible env branch env.localBranches = some b →
        (GQImport.switchAway env branch).1 = Except.ok none
        ∧ (GQImport.switchAway env branch).2.getLast? =
            some (GQImport.GitCmd.checkout b)
        ∧ b ∈ env.localBranches ∧ b ≠ branch ∧ env.checkoutOk b = true)
  ∧ ((GQImport.stageA env branch).1 = false →
      GQImport.firstEligible env branch env.localBranches = none →
      ¬(env.branchExists (GQImport.tempName branch) = true ∧
          env.deleteOk (GQImport.tempName branch) = false) →
      (env.newFromParentOk = true →
        (GQImport.switchAway env branch).1 =
            Except.ok (some (GQImport.tempName branch))
        ∧ (GQImport.switchAway env branch).2.getLast? =
            some (GQImport.GitCmd.checkoutNewFromParent
              (GQImport.tempName branch)))
      ∧ (env.newFromParentOk = false → env.orphanOk = true →
        (GQImport.switchAway env branch).1 =
            Except.ok (some (GQImport.tempName branch))
        ∧ (GQImport.switchAway env branch).2.getLast? =
            some GQImport.GitCmd.resetHard))
  ∧ (∀ res tr, GQImport.delete_branch_safely env branch = (res, tr) →
      GQImport.GitCmd.deleteBranch branch ∈ tr →
      (∃ temp, (GQImport.switchAway env branch).1 = Except.ok temp)
      ∧ tr = (GQImport.switchAway env branch).2 ++
          [GQImport.GitCmd.deleteBranch branch]) := by
  refine ⟨?_, ?_, ?_, ?_⟩
  · intro d hd hbe hdne hco
    have ha : (GQImport.stageA env branch).1 = true := by
      simp [GQImport.stageA, hd, hbe, hdne, hco]
    have ha2 : (GQImport.stageA env branch).2 =
        [GQImport.GitCmd.checkout d] := by
      simp [GQImport.stageA, hd, hbe, hdne]
    simp only [GQImport.switchAway]
    rw [if_pos ha, ha2]
  · intro ha b hfe
    obtain ⟨ht1, ht2, hmem, hne, hok⟩ :=
      tryOther_eligible env branch env.localBranches b hfe
    have hsw : GQImport.switchAway env branch =
        (Except.ok none, (GQImport.stageA env branch).2 ++
          (GQImport.tryOther env branch env.localBranches).2) := by
      simp only [GQImport.switchAway]
      rw [if_neg (by simp [ha]), if_pos ht1]
    refine ⟨by rw [hsw], ?_, hmem, hne, hok⟩
    rw [hsw]
    show ((GQImport.stageA env branch).2 ++
        (GQImport.tryOther env branch env.localBranches).2).getLast? =
      some (GQImport.GitCmd.checkout b)
    rw [List.getLast?_append, ht2]
    rfl
  · intro ha hfe hnot
    have hb := tryOther_none env branch env.localBranches hfe
    constructor
    · intro hn
      have hsw : GQImport.switchAway env branch =
          (Except.ok (some (GQImport.tempName branch)),
            (GQImport.stageA env branch).2 ++
              (GQImport.tryOther env branch env.localBranches).2 ++
              (if env.branchExists (GQImport.tempName branch) = true
                then [GQImport.GitCmd.deleteBranch (GQImport.tempName branch)]
                else []) ++
              [GQImport.GitCmd.checkoutNewFromParent
                (GQImport.tempName branch)]) := by
        simp only [GQImport.switchAway]
        rw [if_neg (by simp [ha]), if_neg (by simp [hb]), if_neg hnot,
          if_pos hn]
      refine ⟨by rw [hsw], ?_⟩
      rw [hsw]
      exact List.getLast?_concat _
    · intro hn ho
      have hsw : GQImport.switchAway env branch =
          (Except.ok (some (GQImport.tempName branch)),
            (GQImport.stageA env branch).2 ++
              (GQImport.tryOther env branch env.localBranches).2 ++
              (if env.branchExists (GQImport.tempName branch) = true
                then [GQImport.GitCmd.deleteBranch (GQImport.tempName branch)]
                else []) ++
              [GQImport.GitCmd.checkoutNewFromParent
                (GQImport.tempName branch)] ++
              [GQImport.GitCmd.checkoutOrphan (GQImport.tempName branch)] ++
              [GQImport.GitCmd.resetHard]) := by
        simp only [GQImport.switchAway]
        rw [if_neg (by simp [ha]), if_neg (by simp [hb]), if_neg hnot,
          if_neg (by simp [hn]), if_pos ho]
      refine ⟨by rw [hsw], ?_⟩
      rw [hsw]
      exact List.getLast?_concat _
  · intro res tr hd hmem
    rcases hsw : GQImport.switchAway env branch with ⟨sres, swtr⟩
    cases sres with
    | error e =>
        simp only [GQImport.delete_branch_safely, hcur, hsw] at hd
        rw [if_pos trivial, Prod.mk.injEq] at hd
        rw [← hd.2] at hmem
        have hnot := deleteBranch_not_mem_switchAway env branch
        rw [hsw] at hnot
        exact absurd hmem hnot
    | ok temp =>
        simp only [GQImport.delete_branch_safely, hcur, hsw] at hd
        rw [if_pos trivial] at hd
        by_cases hdo : env.deleteOk branch = true
        · rw [if_pos hdo, Prod.mk.injEq] at hd
          refine ⟨⟨temp, rfl⟩, ?_⟩
          rw [← hd.2]
        · rw [if_neg hdo, Prod.mk.injEq] at hd
          refine ⟨⟨temp, rfl⟩, ?_⟩
          rw [← hd.2]

/-- Witness for C5: with `feature` checked out and default branch `main`
available, the switch-away goes to `main` and only then can the delete
follow. -/
theorem overwrite_switch_away_order_witness :
    GQImport.switchAway GQImport.sampleEnvSelf "feature" =
      (Except.ok none, [GQImport.GitCmd.checkout "main"]) :=
  (overwrite_switch_away_order GQImport.sampleEnvSelf "feature" rfl).1 "main"
    rfl rfl (by decide) rfl
